import Mathlib

set_option autoImplicit false

/-!
# Verification of the Jellyfin Storage Manager core (library scanner + move job engine)

Shallow embedding of `src/backend/src/jobs.rs` and `src/backend/src/scanner.rs`.

Modelling conventions:
* Filesystem paths are lists of components (`FsPath`); Rust's `Path::starts_with`
  is component-wise prefix, embedded as `List.isPrefixOf`.
* `i64` values are `Int` with explicit saturation at the `i64` bounds where the
  source uses `saturating_add` / `min(i64::MAX)`.
* The SQLite tables are lists of rows; `sqlx` queries become pure list operations.
  Database writes other than the finalization transaction are assumed to succeed;
  the finalization transaction's possible failure is an explicit boolean input
  (`txOk`), and filesystem failures during the copy walk are explicit in the
  walk-event input.
* Wall-clock throughput/ETA arithmetic (`Instant::elapsed`, f64 division in
  `execute_job`) is abstracted as an oracle `speedEta : Nat → Int × Int`; no claim
  quantifies over those two values, only over how they are persisted and zeroed.
-/

namespace JSM

/-- A filesystem path as its list of normal components (Rust `Path` components). -/
abbrev FsPath := List String

/-- Rust `Path::starts_with`: component-wise prefix test. -/

def pathStartsWith (p root : FsPath) : Bool := root.isPrefixOf p

/-- Rust `Path::strip_prefix`: drop a component-wise prefix, failing otherwise. -/

def stripPrefixPath (p root : FsPath) : Option FsPath :=
  if pathStartsWith p root then some (p.drop root.length) else none

/-- Rust `Path::join` for a relative remainder: append components. -/

def joinPath (root rel : FsPath) : FsPath := root ++ rel

/-- Rust `str::trim` (whitespace removal at both ends). -/

def strTrim (s : String) : String :=
  String.mk (((s.toList.dropWhile Char.isWhitespace).reverse.dropWhile
    Char.isWhitespace).reverse)

/-- ASCII lowercasing of a string (Rust's `eq_ignore_ascii_case` comparisons;
`Char.toLower` maps exactly `A`-`Z`). -/

def asciiLower (s : String) : String := String.mk (s.toList.map Char.toLower)

/-- Split a character list at every `/`. -/

def splitSlashAux : List Char → List Char → List (List Char)
  | [], acc => [acc.reverse]
  | c :: rest, acc =>
    if c = '/' then acc.reverse :: splitSlashAux rest []
    else splitSlashAux rest (c :: acc)

/-- `PathBuf::from(string)`: split on the separator, dropping empty and `.`
components (Rust's component normalization for ordinary absolute paths). -/

def parsePath (s : String) : FsPath :=
  ((splitSlashAux s.toList []).map (fun cs => String.mk cs)).filter
    (fun c => c != "" && c != ".")

/-- Configuration snapshot consumed by the scanner and the job engine
(`config.rs`: `Config`); only the fields the core reads are embedded. -/
structure Config where
  hot_root : String
  cold_root : String
  library_paths : List String

/-- `jobs.rs::JobError`. `Database`/`Io` carry the rendered error text. -/
inductive JobError where
  | ShowNotFound
  | InvalidTarget
  | AlreadyInLocation
  | MissingRoot (which : String)
  | PathMismatch
  | Database (msg : String)
  | Io (msg : String)
deriving Repr, DecidableEq

instance {ε α : Type} [DecidableEq ε] [DecidableEq α] :
    DecidableEq (Except ε α) := fun x y =>
  match x, y with
  | .error a, .error b =>
    if h : a = b then isTrue (by rw [h])
    else isFalse (by intro hc; injection hc; contradiction)
  | .error _, .ok _ => isFalse (fun h => Except.noConfusion h)
  | .ok _, .error _ => isFalse (fun h => Except.noConfusion h)
  | .ok a, .ok b =>
    if h : a = b then isTrue (by rw [h])
    else isFalse (by intro hc; injection hc; contradiction)

/-- The worker's `format!("{err:?}")` rendering of a `JobError`. -/

def errMsg : JobError → String
  | .ShowNotFound => "ShowNotFound"
  | .InvalidTarget => "InvalidTarget"
  | .AlreadyInLocation => "AlreadyInLocation"
  | .MissingRoot w => "MissingRoot(" ++ w ++ ")"
  | .PathMismatch => "PathMismatch"
  | .Database m => "Database(" ++ m ++ ")"
  | .Io m => "Io(" ++ m ++ ")"

/-- `jobs.rs::trimmed_root`: trim the configured root, `None` when blank,
otherwise the parsed path. -/

def trimmed_root (value : String) : Option FsPath :=
  let trimmed := strTrim value
  if trimmed = "" then none else some (parsePath trimmed)

/-- `jobs.rs::normalize_target`: case-insensitive normalization to one of the
two tier tokens (`to_lowercase` embedded as ASCII lowercasing; neither tier
token contains a character reachable only by Unicode case mapping). -/

def normalize_target (target : String) : Option String :=
  let t := asciiLower (strTrim target)
  if t = "hot" then some "hot"
  else if t = "cold" then some "cold"
  else none

/-- `jobs.rs::detect_location`: which configured root the show path is under,
hot tested first; `PathMismatch` when neither. Returns the tier token and the
matched root. -/

def detect_location (show_path hot_root cold_root : FsPath) :
    Except JobError (String × FsPath) :=
  if pathStartsWith show_path hot_root then .ok ("hot", hot_root)
  else if pathStartsWith show_path cold_root then .ok ("cold", cold_root)
  else .error .PathMismatch

/-- `jobs.rs::resolve_location_from_path`: tier of a path from the configured
roots, hot tested first. -/

def resolve_location_from_path (path : FsPath) (config : Config) :
    Except JobError String :=
  match trimmed_root config.hot_root with
  | none => .error (.MissingRoot "hot_root")
  | some hot_root =>
    match trimmed_root config.cold_root with
    | none => .error (.MissingRoot "cold_root")
    | some cold_root =>
      if pathStartsWith path hot_root then .ok "hot"
      else if pathStartsWith path cold_root then .ok "cold"
      else .error .PathMismatch

/-- `scanner.rs::determine_location`: tier of a show path from optional roots,
hot tested first, `none` when neither matches. -/

def determine_location (show_path : FsPath) (hot_root cold_root : Option FsPath) :
    Option String :=
  match hot_root with
  | some root => if pathStartsWith show_path root then some "hot"
                 else match cold_root with
                      | some root2 => if pathStartsWith show_path root2 then some "cold" else none
                      | none => none
  | none => match cold_root with
            | some root2 => if pathStartsWith show_path root2 then some "cold" else none
            | none => none

/-! ## Scanner: file classification and per-show derivation (`scanner.rs`) -/

/-- A directory subtree as seen by the scanner's recursive walk. -/
inductive FsTree where
  | file (name : String) (size : Nat)
  | dir (name : String) (children : List FsTree)
deriving Repr

mutual

/-- Names of all regular files in the recursive subtree (`WalkDir` file entries;
the classification predicates below only inspect the final path component). -/

def filesOf : FsTree → List String
  | .file name _ => [name]
  | .dir _ children => filesOfList children

def filesOfList : List FsTree → List String
  | [] => []
  | t :: ts => filesOf t ++ filesOfList ts
end

/-- Rust `str::eq_ignore_ascii_case`. -/

def eqIgnoreAsciiCase (a b : String) : Bool := asciiLower a == asciiLower b

/-- Rust `Path::extension` on a file name: the part after the last `.`, absent
when there is no dot or the dot is the leading character. -/

def extensionOf (name : String) : Option String :=
  let rev := name.toList.reverse
  let extRev := rev.takeWhile (fun c => c != '.')
  match rev.dropWhile (fun c => c != '.') with
  | [] => none
  | _ :: stemRev => if stemRev = [] then none else some (String.mk extRev.reverse)

/-- `scanner.rs::VIDEO_EXTENSIONS`. -/

def VIDEO_EXTENSIONS : List String := ["mkv", "mp4", "avi", "mov", "m4v", "wmv"]

/-- `scanner.rs::is_video_file`: extension case-insensitively in the fixed set. -/

def is_video_file (name : String) : Bool :=
  match extensionOf name with
  | some ext => VIDEO_EXTENSIONS.any (fun c => eqIgnoreAsciiCase ext c)
  | none => false

/-- `scanner.rs::is_nfo_file`. -/

def is_nfo_file (name : String) : Bool :=
  match extensionOf name with
  | some ext => eqIgnoreAsciiCase ext "nfo"
  | none => false

/-- `scanner.rs::file_name_equals` applied to a file name. -/

def file_name_equals (name expected : String) : Bool := eqIgnoreAsciiCase name expected

/-- `scanner.rs::is_episode_nfo`: an `.nfo` file that is not `tvshow.nfo`. -/

def is_episode_nfo (name : String) : Bool :=
  is_nfo_file name && !file_name_equals name "tvshow.nfo"

/-- `i64::MAX` as an integer. -/

def I64_MAX : Int := 2 ^ 63 - 1

/-- `i64::MIN` as an integer. -/

def I64_MIN : Int := -(2 ^ 63)

/-- `scanner.rs::clamp_to_i64`: clamp an unsigned count to `i64::MAX`. -/

def clamp_to_i64 (n : Nat) : Int := min (n : Int) I64_MAX

/-- `scanner.rs::count_episode_nfo_files`: recursive count of per-episode
`.nfo` sidecars. -/

def count_episode_nfo_files (t : FsTree) : Nat :=
  (filesOf t).countP (fun n => is_episode_nfo n)

/-- Recursive count of video files (`gather_stats`'s `episode_count`). -/

def video_episode_count (t : FsTree) : Nat :=
  (filesOf t).countP (fun n => is_video_file n)

/-- `build_show_candidate`'s episode-count derivation: per-episode `.nfo` count
when positive, otherwise the video-file count. -/

def derived_episode_count (t : FsTree) : Int :=
  let nfoCount := count_episode_nfo_files t
  if nfoCount > 0 then clamp_to_i64 nfoCount
  else clamp_to_i64 (video_episode_count t)

/-! ## Scanner: title extraction from `tvshow.nfo` (`extract_title_from_nfo`) -/

/-- The event stream produced by the XML reader over `tvshow.nfo`; `text`
carries the already-unescaped content (an unescape failure or any other event
kind is `other`). -/
inductive XmlEvent where
  | start (name : String)
  | endElem (name : String)
  | text (content : String)
  | errEvent (msg : String)
  | other
deriving Repr, DecidableEq

/-- The event loop of `extract_title_from_nfo`, carrying the `in_title` flag.
The end of the stream is `Event::Eof`; a reader error also ends the loop with
no title. -/

def extractTitleLoop (in_title : Bool) : List XmlEvent → Option String
  | [] => none
  | ev :: rest =>
    match ev with
    | .start name =>
        extractTitleLoop (if eqIgnoreAsciiCase name "title" then true else in_title) rest
    | .text content =>
        if in_title then
          let trimmed := strTrim content
          if trimmed ≠ "" then some trimmed else extractTitleLoop in_title rest
        else extractTitleLoop in_title rest
    | .endElem name =>
        extractTitleLoop
          (if in_title && eqIgnoreAsciiCase name "title" then false else in_title) rest
    | .errEvent _ => none
    | .other => extractTitleLoop in_title rest

/-- `scanner.rs::extract_title_from_nfo` over the reader's event stream. -/

def extract_title_from_nfo (events : List XmlEvent) : Option String :=
  extractTitleLoop false events

/-- The title/provenance derivation of `build_show_candidate`: `tvshowNfo` is
`none` when `tvshow.nfo` is absent or unreadable, otherwise the parsed event
stream of its contents. -/

def titleAndSource (folderName : String) (tvshowNfo : Option (List XmlEvent)) :
    String × String :=
  let nfo_title := tvshowNfo.bind extract_title_from_nfo
  match nfo_title with
  | some t => (t, "fs_scan_nfo")
  | none => (folderName, "fs_scan")

/-! ## Data model: the `shows` and `jobs` tables (`db.rs` schema) -/

/-- A row of the `shows` table. -/
structure ShowRow where
  id : Int
  title : Option String
  path : String
  location : Option String
  size_bytes : Option Int
  season_count : Option Int
  episode_count : Option Int
  thumbnail_path : Option String
  source : Option String
  last_scan : Option Int
deriving Repr, DecidableEq

/-- A row of the `jobs` table (`jobs.rs::JobRow`). -/
structure JobRow where
  id : Int
  show_id : Int
  source_path : String
  destination_path : String
  status : String
  progress_bytes : Option Int
  total_bytes : Option Int
  speed_bytes_per_sec : Option Int
  eta_seconds : Option Int
  error_message : Option String
  created_at : Option Int
  updated_at : Option Int
deriving Repr, DecidableEq

/-- The SQLite database state; `next_job_id` models rowid allocation for the
`jobs` table. -/
structure Db where
  shows : List ShowRow
  jobs : List JobRow
  next_job_id : Int
deriving Repr, DecidableEq

/-- Status tokens (`jobs.rs` constants). -/

def STATUS_QUEUED : String := "queued"

def STATUS_RUNNING : String := "running"

def STATUS_SUCCESS : String := "success"

def STATUS_FAILED : String := "failed"

/-! ## Admission (`jobs.rs::create_move_job`) -/

/-- `PathBuf::to_string_lossy` for an absolute path built from clean
components: the components joined by the separator with a leading separator. -/

def renderAbsPath (p : FsPath) : String := String.intercalate "/" ("" :: p)

/-- `jobs.rs::create_move_job`: validate the request and, on success, insert a
`queued` job row. Returns the database afterward together with the admission
outcome (the persisted row on success). The source performs no filesystem
operation here, so the state is the database alone. -/

def create_move_job (db : Db) (config : Config) (show_id : Int) (target : String)
    (now : Int) : Db × Except JobError JobRow :=
  match normalize_target target with
  | none => (db, .error .InvalidTarget)
  | some normalized_target =>
    match db.shows.find? (fun s => s.id == show_id) with
    | none => (db, .error .ShowNotFound)
    | some showRow =>
      match trimmed_root config.hot_root with
      | none => (db, .error (.MissingRoot "hot_root"))
      | some hot_root =>
        match trimmed_root config.cold_root with
        | none => (db, .error (.MissingRoot "cold_root"))
        | some cold_root =>
          let show_path := parsePath showRow.path
          match detect_location show_path hot_root cold_root with
          | .error e => (db, .error e)
          | .ok (current_location, current_root) =>
            if current_location = normalized_target then
              (db, .error .AlreadyInLocation)
            else
              let destination_root := if normalized_target = "hot" then hot_root else cold_root
              match stripPrefixPath show_path current_root with
              | none => (db, .error .PathMismatch)
              | some relative =>
                let destination_path := joinPath destination_root relative
                let total_bytes := max (showRow.size_bytes.getD 0) 0
                let row : JobRow :=
                  { id := db.next_job_id
                    show_id := showRow.id
                    source_path := showRow.path
                    destination_path := renderAbsPath destination_path
                    status := STATUS_QUEUED
                    progress_bytes := some 0
                    total_bytes := some total_bytes
                    speed_bytes_per_sec := some 0
                    eta_seconds := some 0
                    error_message := none
                    created_at := some now
                    updated_at := some now }
                ({ db with jobs := db.jobs ++ [row], next_job_id := db.next_job_id + 1 },
                 .ok row)

/-! ## Worker dequeue (`jobs.rs::fetch_next_job`) -/

/-- SQLite ascending comparison on a nullable column: `NULL` sorts first. -/

def optIntLt (a b : Option Int) : Bool :=
  match a, b with
  | none, none => false
  | none, some _ => true
  | some _, none => false
  | some x, some y => x < y

/-- The `ORDER BY CASE status WHEN running THEN 0 ELSE 1 END` rank. -/

def statusRank (j : JobRow) : Int := if j.status = STATUS_RUNNING then 0 else 1

/-- Strict "sorts before" order of the dequeue query: running first, then
oldest `created_at`. -/

def jobBefore (a b : JobRow) : Bool :=
  decide (statusRank a < statusRank b) ||
    (decide (statusRank a = statusRank b) && optIntLt a.created_at b.created_at)

/-- `status IN (queued, running)`. -/

def eligibleJob (j : JobRow) : Bool :=
  j.status == STATUS_QUEUED || j.status == STATUS_RUNNING

/-- One step of the minimum scan: adopt the candidate only when it sorts
strictly before the current best. -/

def selStep (acc : Option JobRow) (j : JobRow) : Option JobRow :=
  match acc with
  | none => some j
  | some a => if jobBefore j a then some j else acc

/-- `SELECT ... ORDER BY ... LIMIT 1`: a minimal eligible row under the query's
order (the first such row in table order, matching SQLite's scan). -/

def selectNextJob (jobs : List JobRow) : Option JobRow :=
  (jobs.filter eligibleJob).foldl selStep none

/-- `jobs.rs::fetch_next_job`: select the next eligible job; when it is not yet
`running`, atomically mark it `running`, clear `error_message`, stamp
`updated_at`, and return the row with its in-memory status updated. -/

def fetch_next_job (db : Db) (now : Int) : Option JobRow × Db :=
  match selectNextJob db.jobs with
  | none => (none, db)
  | some job =>
    if job.status ≠ STATUS_RUNNING then
      let db' := { db with
        jobs := db.jobs.map (fun j =>
          if j.id = job.id then
            { j with status := STATUS_RUNNING, updated_at := some now, error_message := none }
          else j) }
      (some { job with status := STATUS_RUNNING }, db')
    else
      (some job, db)

/-! ## Execution (`jobs.rs::execute_job` and its helpers) -/

/-- `i64::saturating_add`. -/

def saturatingAddI64 (a b : Int) : Int := max I64_MIN (min I64_MAX (a + b))

/-- One entry of the `WalkDir` traversal of the source tree, or a traversal /
copy failure. `file`'s `copyOk` is whether `fs::copy` succeeds for it; `size`
is its `metadata().len()`. -/
inductive WalkEvent where
  | entryErr (msg : String)
  | dirEntry (path : FsPath)
  | fileEntry (path : FsPath) (size : Nat) (copyOk : Bool)
deriving Repr, DecidableEq

/-- `jobs.rs::update_job_progress`: persist progress, speed and ETA for a job
row. -/

def update_job_progress (db : Db) (job_id : Int) (progress speed eta now : Int) : Db :=
  { db with jobs := db.jobs.map (fun j =>
      if j.id = job_id then
        { j with progress_bytes := some progress, speed_bytes_per_sec := some speed,
                 eta_seconds := some eta, updated_at := some now }
      else j) }

/-- Result of the copy walk: the database after the persisted progress updates,
the trace of persisted `progress_bytes` values in order, and either the final
copied-bytes counter or the aborting error. -/
structure CopyOutcome where
  db : Db
  trace : List Int
  result : Except JobError Int
deriving Repr

/-- The per-entry copy loop of `execute_job` (`for entry in WalkDir::new(...)`):
skip the source root, mirror directories, copy files while accumulating
`copied` with `saturating_add`, clamping persisted progress to `total_bytes`,
and persisting progress after every file. `speedEta` abstracts the wall-clock
throughput and ETA computed for the `idx`-th copied file. -/

def copyLoop (jobId : Int) (source : FsPath) (total : Int)
    (speedEta : Nat → Int × Int) (now : Int) :
    Db → Int → List Int → Nat → List WalkEvent → CopyOutcome
  | db, copied, trace, _, [] => ⟨db, trace.reverse, .ok copied⟩
  | db, copied, trace, idx, ev :: rest =>
    match ev with
    | .entryErr msg => ⟨db, trace.reverse, .error (.Io msg)⟩
    | .dirEntry p =>
      if p = source then copyLoop jobId source total speedEta now db copied trace idx rest
      else
        match stripPrefixPath p source with
        | none => ⟨db, trace.reverse, .error .PathMismatch⟩
        | some _ => copyLoop jobId source total speedEta now db copied trace idx rest
    | .fileEntry p size copyOk =>
      if p = source then copyLoop jobId source total speedEta now db copied trace idx rest
      else
        match stripPrefixPath p source with
        | none => ⟨db, trace.reverse, .error .PathMismatch⟩
        | some _ =>
          if copyOk then
            let bytes : Int := min (size : Int) I64_MAX
            let copied' := saturatingAddI64 copied bytes
            let progress := min copied' total
            let se := speedEta idx
            let db' := update_job_progress db jobId progress se.1 se.2 now
            copyLoop jobId source total speedEta now db' copied' (progress :: trace) (idx + 1) rest
          else ⟨db, trace.reverse, .error (.Io "copy failed")⟩

/-- The sizes of the file entries a full walk copies (everything except the
source root itself). -/

def walkFileSizes (source : FsPath) (walk : List WalkEvent) : List Nat :=
  walk.filterMap (fun ev =>
    match ev with
    | .fileEntry p size _ => if p = source then none else some size
    | _ => none)

/-- One file's contribution to the copied-bytes counter: its metadata size
clamped to `i64::MAX`, added with `saturating_add`. -/

def copyStep (acc : Int) (s : Nat) : Int :=
  saturatingAddI64 acc (min (s : Int) I64_MAX)

/-- The finalization transaction of `execute_job`: in one atomic commit,
rewrite the show's path and location and mark the job `success` with clamped
progress, cleared error and zeroed speed/ETA. -/

def applyMoveTx (db : Db) (job : JobRow) (new_location : String)
    (final_progress now : Int) : Db :=
  { db with
    shows := db.shows.map (fun s =>
      if s.id = job.show_id then
        { s with path := job.destination_path, location := some new_location }
      else s),
    jobs := db.jobs.map (fun j =>
      if j.id = job.id then
        { j with status := STATUS_SUCCESS, error_message := none,
                 progress_bytes := some final_progress,
                 eta_seconds := some 0, speed_bytes_per_sec := some 0,
                 updated_at := some now }
      else j) }

/-- `jobs.rs::execute_job`: clean and recreate the destination (filesystem-only,
no database effect), walk and copy the source tree with progress updates, then
finalize in one transaction: rewrite the show's path and location and mark the
job `success` with clamped progress and zeroed speed/ETA. `txOk` is whether
that transaction commits. Returns the database afterward and the job-level
outcome. -/

def execute_job (db : Db) (config : Config) (job : JobRow)
    (walk : List WalkEvent) (speedEta : Nat → Int × Int) (txOk : Bool)
    (now : Int) : Db × Except JobError Unit :=
  let source_path := parsePath job.source_path
  let destination_path := parsePath job.destination_path
  let total_bytes := max (job.total_bytes.getD 0) 0
  let initial := job.progress_bytes.getD 0
  let outcome := copyLoop job.id source_path total_bytes speedEta now db initial [] 0 walk
  match outcome.result with
  | .error e => (outcome.db, .error e)
  | .ok copied =>
    let final_progress := min copied total_bytes
    match resolve_location_from_path destination_path config with
    | .error e => (outcome.db, .error e)
    | .ok new_location =>
      if txOk then
        (applyMoveTx outcome.db job new_location final_progress now, .ok ())
      else (outcome.db, .error (.Database "transaction failed"))

/-- The row update of `finalize_job_status`: set status and error message,
override progress only when given (`COALESCE`), zero speed/ETA. -/

def finalizeRow (status : String) (error_message : Option String)
    (progress_override : Option Int) (now : Int) (j : JobRow) : JobRow :=
  { j with status := status, error_message := error_message,
           progress_bytes := match progress_override with
                             | some p => some p
                             | none => j.progress_bytes,
           updated_at := some now, eta_seconds := some 0,
           speed_bytes_per_sec := some 0 }

/-- `jobs.rs::finalize_job_status`. -/

def finalize_job_status (db : Db) (job_id : Int) (status : String)
    (error_message : Option String) (progress_override : Option Int) (now : Int) : Db :=
  { db with jobs := db.jobs.map (fun j =>
      if j.id = job_id then finalizeRow status error_message progress_override now j
      else j) }

/-- The worker's handling of one claimed job (`start_worker`, job branch):
run `execute_job`; on error, mark the job `failed` with the rendered error and
no progress override. -/

def run_job (db : Db) (config : Config) (job : JobRow) (walk : List WalkEvent)
    (speedEta : Nat → Int × Int) (txOk : Bool) (now : Int) : Db :=
  match execute_job db config job walk speedEta txOk now with
  | (db', .ok _) => db'
  | (db', .error e) =>
      finalize_job_status db' job.id STATUS_FAILED (some (errMsg e)) none now

/-! ## Scanner upsert and scan summary (`scanner.rs::upsert_show`, `run_scan`) -/

/-- `scanner.rs::sanitize_root` (textually identical to `trimmed_root`). -/

def sanitize_root (value : String) : Option FsPath :=
  let trimmed := strTrim value
  if trimmed = "" then none else some (parsePath trimmed)

/-- `scanner.rs::ShowCandidate`: the derived in-memory record for one show
directory. -/
structure ShowCandidate where
  title : String
  path : String
  location : Option String
  size_bytes : Int
  season_count : Int
  episode_count : Int
  thumbnail_path : Option String
  source : String
deriving Repr, DecidableEq

/-- `scanner.rs::UpsertResult`. -/
inductive UpsertResult where
  | Inserted
  | Updated
deriving Repr, DecidableEq

/-- `scanner.rs::upsert_show`: match by exact canonical path string; overwrite
all derived fields and advance `last_scan` when a row exists (`ON
CONFLICT(path) DO UPDATE`, an `Updated` outcome), otherwise insert a new row
(`Inserted`). `nextId` models rowid allocation of the `shows` table. -/

def upsert_show (shows : List ShowRow) (nextId : Int) (c : ShowCandidate)
    (now : Int) : List ShowRow × Int × UpsertResult :=
  if shows.any (fun s => s.path == c.path) then
    (shows.map (fun s =>
       if s.path = c.path then
         { s with title := some c.title, location := c.location,
                  size_bytes := some c.size_bytes, season_count := some c.season_count,
                  episode_count := some c.episode_count,
                  thumbnail_path := c.thumbnail_path, source := some c.source,
                  last_scan := some now }
       else s),
     nextId, .Updated)
  else
    (shows ++ [{ id := nextId, title := some c.title, path := c.path,
                 location := c.location, size_bytes := some c.size_bytes,
                 season_count := some c.season_count,
                 episode_count := some c.episode_count,
                 thumbnail_path := c.thumbnail_path, source := some c.source,
                 last_scan := some now }],
     nextId + 1, .Inserted)

/-- The scan-run accumulator (`run_scan`'s `summary` plus the `shows` table). -/
structure ScanState where
  shows : List ShowRow
  nextId : Int
  inserted : Nat
  updated : Nat
deriving Repr

/-- One candidate processed by `run_scan`'s upsert loop. -/

def scanStep (now : Int) (st : ScanState) (c : ShowCandidate) : ScanState :=
  match upsert_show st.shows st.nextId c now with
  | (shows', nextId', r) =>
    { shows := shows', nextId := nextId',
      inserted := st.inserted + (if r = .Inserted then 1 else 0),
      updated := st.updated + (if r = .Updated then 1 else 0) }

/-- `run_scan`'s upsert loop over the discovered candidates of one run. -/

def runScanCandidates (now : Int) (st : ScanState) (cands : List ShowCandidate) :
    ScanState :=
  cands.foldl (scanStep now) st

/-! ## Concrete sample data for the witnesses -/

/-- Some row of the table has the given canonical path. -/
def hasPath (shows : List ShowRow) (p : String) : Prop :=
  ∃ s ∈ shows, s.path = p

/-- A show indexed in the hot tier. -/
def hotShowRow : ShowRow :=
  { id := 1, title := some "ShowA", path := "/tank/media/ShowA",
    location := some "hot", size_bytes := some 100, season_count := some 1,
    episode_count := some 2, thumbnail_path := none, source := some "fs_scan",
    last_scan := some 5 }

/-- Index with one hot show and an empty job queue. -/
def admissionDb : Db := { shows := [hotShowRow], jobs := [], next_job_id := 1 }

/-- Disjoint hot/cold tier roots. -/
def tierConfig : Config :=
  { hot_root := "/tank/media", cold_root := "/tank/cold", library_paths := [] }

/-- A claimed hot-to-cold move job for `hotShowRow`. -/
def moveJobRow : JobRow :=
  { id := 1, show_id := 1, source_path := "/tank/media/ShowA",
    destination_path := "/tank/cold/ShowA", status := "running",
    progress_bytes := some 0, total_bytes := some 60,
    speed_bytes_per_sec := some 0, eta_seconds := some 0, error_message := none,
    created_at := some 10, updated_at := some 10 }

/-- The same move job resumed after a crash with persisted progress. -/
def resumedMoveJobRow : JobRow :=
  { id := 1, show_id := 1, source_path := "/tank/media/ShowA",
    destination_path := "/tank/cold/ShowA", status := "running",
    progress_bytes := some 30, total_bytes := some 60,
    speed_bytes_per_sec := some 0, eta_seconds := some 0, error_message := none,
    created_at := some 10, updated_at := some 10 }

/-- Database state while `moveJobRow` executes. -/
def moveDb : Db :=
  { shows := [hotShowRow], jobs := [moveJobRow], next_job_id := 2 }

/-- The walk of `ShowA`'s source tree: one 60-byte episode. -/
def moveWalk : List WalkEvent :=
  [.fileEntry ["tank", "media", "ShowA", "e1.mkv"] 60 true]

/-- The row admission inserts for a cold move of `hotShowRow`. -/
def createdJobRow : JobRow :=
  { id := 1, show_id := 1, source_path := "/tank/media/ShowA",
    destination_path := "/tank/cold/ShowA", status := "queued",
    progress_bytes := some 0, total_bytes := some 100,
    speed_bytes_per_sec := some 0, eta_seconds := some 0, error_message := none,
    created_at := some 50, updated_at := some 50 }

/-- `admissionDb` after that admission. -/
def admissionDbAfter : Db :=
  { shows := [hotShowRow], jobs := [createdJobRow], next_job_id := 2 }

/-- Concrete nested-roots configuration for the C10 witness. -/
def nestedRootsConfig : Config :=
  { hot_root := "/tank/media", cold_root := "/tank/media/cold", library_paths := [] }

/-- A show directory with two per-episode `.nfo` sidecars and five video
files. -/
def sampleShowTree : FsTree :=
  .dir "ShowA"
    [.file "tvshow.nfo" 10,
     .dir "Season 1"
       [.file "e1.mkv" 100, .file "e1.nfo" 1, .file "e2.mkv" 100,
        .file "e2.nfo" 1, .file "e3.mkv" 100, .file "e4.mp4" 100,
        .file "e5.avi" 100]]

/-- The same directory without the per-episode `.nfo` sidecars. -/
def sampleShowTreeNoNfo : FsTree :=
  .dir "ShowA"
    [.file "tvshow.nfo" 10,
     .dir "Season 1"
       [.file "e1.mkv" 100, .file "e2.mkv" 100, .file "e3.mkv" 100,
        .file "e4.mp4" 100, .file "e5.avi" 100]]

/-- The event stream of a `tvshow.nfo` holding `<title>Example</title>`. -/
def sampleNfoEvents : List XmlEvent :=
  [.start "tvshow", .start "title", .text "Example", .endElem "title",
   .endElem "tvshow"]

/-- Candidate derived for the show directory `A`. -/
def candShowA : ShowCandidate :=
  { title := "A", path := "/tank/media/A", location := some "hot",
    size_bytes := 10, season_count := 1, episode_count := 1,
    thumbnail_path := none, source := "fs_scan" }

/-- Candidate re-derived for the already-indexed directory `ShowA`. -/
def candShowARescan : ShowCandidate :=
  { title := "ShowA", path := "/tank/media/ShowA", location := some "hot",
    size_bytes := 100, season_count := 1, episode_count := 2,
    thumbnail_path := none, source := "fs_scan" }

/-- Candidate derived for the show directory `B`. -/
def candShowB : ShowCandidate :=
  { title := "B", path := "/tank/media/B", location := some "hot",
    size_bytes := 20, season_count := 2, episode_count := 8,
    thumbnail_path := some "/tank/media/B/folder.jpg", source := "fs_scan_nfo" }

/-- A queued job row, older than the running one. -/
def queuedJobRow : JobRow :=
  { id := 1, show_id := 1, source_path := "/tank/media/cold/ShowA",
    destination_path := "/tank/media/ShowA", status := "queued",
    progress_bytes := some 0, total_bytes := some 100,
    speed_bytes_per_sec := some 0, eta_seconds := some 0, error_message := none,
    created_at := some 10, updated_at := some 10 }

/-- A running job row interrupted by a restart. -/
def runningJobRow : JobRow :=
  { id := 2, show_id := 2, source_path := "/tank/media/ShowB",
    destination_path := "/tank/media/cold/ShowB", status := "running",
    progress_bytes := some 5, total_bytes := some 50,
    speed_bytes_per_sec := some 1, eta_seconds := some 45, error_message := none,
    created_at := some 20, updated_at := some 20 }

/-- Queue state right after a restart: one queued and one running job. -/
def resumeDb : Db :=
  { shows := [], jobs := [queuedJobRow, runningJobRow], next_job_id := 3 }

/-! ## Helper lemmas -/

theorem sanitize_root_eq_trimmed_root (v : String) :
    sanitize_root v = trimmed_root v := rfl

/-- A successful `extractTitleLoop` result is the non-empty trim of the content
of some text event of the stream. -/

theorem extractTitleLoop_text_mem :
    ∀ (evs : List XmlEvent) (b : Bool) (t : String),
      extractTitleLoop b evs = some t →
      t ≠ "" ∧ ∃ c, XmlEvent.text c ∈ evs ∧ t = strTrim c := by
  intro evs
  induction evs with
  | nil => intro b t h; simp [extractTitleLoop] at h
  | cons ev rest ih =>
    intro b t h
    cases ev with
    | start name =>
      simp only [extractTitleLoop] at h
      obtain ⟨ht, c, hc, he⟩ := ih _ _ h
      exact ⟨ht, c, by simp [hc], he⟩
    | endElem name =>
      simp only [extractTitleLoop] at h
      obtain ⟨ht, c, hc, he⟩ := ih _ _ h
      exact ⟨ht, c, by simp [hc], he⟩
    | text content =>
      simp only [extractTitleLoop] at h
      by_cases hb : b
      · rw [if_pos hb] at h
        by_cases htr : strTrim content ≠ ""
        · rw [if_pos htr] at h
          obtain rfl : strTrim content = t := by injection h
          exact ⟨htr, content, by simp, rfl⟩
        · rw [if_neg htr] at h
          obtain ⟨ht, c, hc, he⟩ := ih _ _ h
          exact ⟨ht, c, by simp [hc], he⟩
      · rw [if_neg hb] at h
        obtain ⟨ht, c, hc, he⟩ := ih _ _ h
        exact ⟨ht, c, by simp [hc], he⟩
    | errEvent msg => simp [extractTitleLoop] at h
    | other =>
      simp only [extractTitleLoop] at h
      obtain ⟨ht, c, hc, he⟩ := ih _ _ h
      exact ⟨ht, c, by simp [hc], he⟩

theorem optIntLt_trans (a b c : Option Int) (h1 : optIntLt a b = true)
    (h2 : optIntLt b c = true) : optIntLt a c = true := by
  cases a <;> cases b <;> cases c <;> simp [optIntLt] at * <;> omega

theorem optIntLt_irrefl (a : Option Int) : optIntLt a a = false := by
  cases a <;> simp [optIntLt]

theorem jobBefore_trans (a b c : JobRow) (h1 : jobBefore a b = true)
    (h2 : jobBefore b c = true) : jobBefore a c = true := by
  simp only [jobBefore, Bool.or_eq_true, Bool.and_eq_true, decide_eq_true_eq] at *
  rcases h1 with h1 | ⟨h1e, h1l⟩ <;> rcases h2 with h2 | ⟨h2e, h2l⟩
  · left; omega
  · left; omega
  · left; omega
  · right; exact ⟨by omega, optIntLt_trans _ _ _ h1l h2l⟩

theorem jobBefore_irrefl (a : JobRow) : jobBefore a a = false := by
  simp [jobBefore, optIntLt_irrefl]

theorem jobBefore_asymm (a b : JobRow) (h : jobBefore a b = true) :
    jobBefore b a = false := by
  cases hb : jobBefore b a
  · rfl
  · have := jobBefore_trans a b a h hb
    rw [jobBefore_irrefl] at this
    exact absurd this (by simp)

/-- The minimum scan yields the accumulator's element or a list element. -/

theorem foldl_selStep_mem :
    ∀ (l : List JobRow) (acc : Option JobRow) (r : JobRow),
      l.foldl selStep acc = some r → acc = some r ∨ r ∈ l := by
  intro l
  induction l with
  | nil => intro acc r h; exact Or.inl h
  | cons x xs ih =>
    intro acc r h
    rw [List.foldl_cons] at h
    rcases ih (selStep acc x) r h with hs | hmem
    · cases acc with
      | none =>
        obtain rfl : x = r := by
          simpa [selStep] using hs
        exact Or.inr (List.mem_cons_self _ _)
      | some a =>
        cases hxa : jobBefore x a with
        | true =>
          obtain rfl : x = r := by
            simpa [selStep, hxa] using hs
          exact Or.inr (List.mem_cons_self _ _)
        | false =>
          refine Or.inl ?_
          simpa [selStep, hxa] using hs
    · exact Or.inr (List.mem_cons_of_mem x hmem)

/-- The minimum scan improves (or keeps) the accumulator and ends at an element
no list element sorts strictly before. -/

theorem foldl_selStep_min :
    ∀ (l : List JobRow) (acc : Option JobRow) (r : JobRow),
      l.foldl selStep acc = some r →
      (∀ a, acc = some a → jobBefore r a = true ∨ r = a) ∧
      (∀ k ∈ l, jobBefore k r = false) := by
  intro l
  induction l with
  | nil =>
    intro acc r h
    refine ⟨fun a ha => Or.inr ?_, by simp⟩
    rw [List.foldl_nil] at h
    rw [h] at ha
    exact Option.some_inj.mp ha
  | cons x xs ih =>
    intro acc r h
    rw [List.foldl_cons] at h
    obtain ⟨P1, P2⟩ := ih (selStep acc x) r h
    constructor
    · intro a ha
      subst ha
      cases hxa : jobBefore x a with
      | true =>
        have hx := P1 x (by simp [selStep, hxa])
        rcases hx with h' | h'
        · exact Or.inl (jobBefore_trans r x a h' hxa)
        · subst h'
          exact Or.inl hxa
      | false =>
        exact P1 a (by simp [selStep, hxa])
    · intro k hk
      rcases List.mem_cons.mp hk with heq | hmem
      · -- k = x: show x never sorts before the result
        rw [heq]
        cases acc with
        | none =>
          rcases P1 x (by simp [selStep]) with h' | h'
          · exact jobBefore_asymm r x h'
          · subst h'
            exact jobBefore_irrefl r
        | some a =>
          cases hxa : jobBefore x a with
          | true =>
            rcases P1 x (by simp [selStep, hxa]) with h' | h'
            · exact jobBefore_asymm r x h'
            · subst h'
              exact jobBefore_irrefl r
          | false =>
            rcases P1 a (by simp [selStep, hxa]) with h' | h'
            · cases hkr : jobBefore x r with
              | true => exact absurd (jobBefore_trans x r a hkr h') (by simp [hxa])
              | false => rfl
            · subst h'
              exact hxa
      · exact P2 k hmem

/-- Mapping a row transform that keeps `id` fixed keeps the table's id column. -/

theorem map_ids_of_id_preserving (f : JobRow → JobRow)
    (hf : ∀ x, (f x).id = x.id) :
    ∀ l : List JobRow, (l.map f).map (fun r => r.id) = l.map (fun r => r.id) := by
  intro l
  induction l with
  | nil => rfl
  | cons x xs ih => simp [hf, ih]

theorem upsert_show_preserves_path (shows : List ShowRow) (nextId : Int)
    (c : ShowCandidate) (now : Int) (p : String) (h : hasPath shows p) :
    hasPath (upsert_show shows nextId c now).1 p := by
  obtain ⟨s, hs, hp⟩ := h
  unfold upsert_show
  by_cases hany : shows.any (fun s' => s'.path == c.path)
  · rw [if_pos hany]
    refine ⟨_, List.mem_map_of_mem _ hs, ?_⟩
    by_cases hsc : s.path = c.path
    · rw [if_pos hsc]
      exact hp
    · rw [if_neg hsc]
      exact hp
  · rw [if_neg hany]
    exact ⟨s, List.mem_append_left _ hs, hp⟩

theorem upsert_show_adds_path (shows : List ShowRow) (nextId : Int)
    (c : ShowCandidate) (now : Int) :
    hasPath (upsert_show shows nextId c now).1 c.path := by
  unfold upsert_show
  by_cases hany : shows.any (fun s' => s'.path == c.path)
  · rw [if_pos hany]
    obtain ⟨s, hs, hp⟩ := List.any_eq_true.mp hany
    refine ⟨_, List.mem_map_of_mem _ hs, ?_⟩
    rw [if_pos (beq_iff_eq.mp hp)]
    exact beq_iff_eq.mp hp
  · rw [if_neg hany]
    exact ⟨_, List.mem_append_right _ (List.mem_singleton_self _), rfl⟩

theorem upsert_show_updated_iff (shows : List ShowRow) (nextId : Int)
    (c : ShowCandidate) (now : Int) :
    (upsert_show shows nextId c now).2.2 = .Updated ↔ hasPath shows c.path := by
  unfold upsert_show
  by_cases hany : shows.any (fun s' => s'.path == c.path)
  · rw [if_pos hany]
    obtain ⟨s, hs, hp⟩ := List.any_eq_true.mp hany
    exact ⟨fun _ => ⟨s, hs, beq_iff_eq.mp hp⟩, fun _ => rfl⟩
  · rw [if_neg hany]
    constructor
    · intro hcontra
      exact absurd hcontra (by simp)
    · intro ⟨s, hs, hp⟩
      exact absurd
        (show (shows.any fun s' => s'.path == c.path) = true from
          List.any_eq_true.mpr ⟨s, hs, beq_iff_eq.mpr hp⟩) hany

theorem scanStep_preserves_path (now : Int) (st : ScanState) (c : ShowCandidate)
    (p : String) (h : hasPath st.shows p) :
    hasPath (scanStep now st c).shows p := by
  unfold scanStep
  exact upsert_show_preserves_path st.shows st.nextId c now p h

theorem scanStep_adds_path (now : Int) (st : ScanState) (c : ShowCandidate) :
    hasPath (scanStep now st c).shows c.path := by
  unfold scanStep
  exact upsert_show_adds_path st.shows st.nextId c now

theorem scanStep_counts_updated (now : Int) (st : ScanState) (c : ShowCandidate)
    (h : hasPath st.shows c.path) :
    (scanStep now st c).inserted = st.inserted ∧
    (scanStep now st c).updated = st.updated + 1 := by
  have hu : (upsert_show st.shows st.nextId c now).2.2 = .Updated :=
    (upsert_show_updated_iff st.shows st.nextId c now).mpr h
  rcases hup : upsert_show st.shows st.nextId c now with ⟨shows', nextId', r⟩
  rw [hup] at hu
  simp only at hu
  unfold scanStep
  rw [hup]
  subst hu
  simp

theorem runScan_preserves_path (now : Int) :
    ∀ (cands : List ShowCandidate) (st : ScanState) (p : String),
      hasPath st.shows p → hasPath (runScanCandidates now st cands).shows p := by
  intro cands
  induction cands with
  | nil => intro st p h; exact h
  | cons c cs ih =>
    intro st p h
    exact ih (scanStep now st c) p (scanStep_preserves_path now st c p h)

theorem runScan_adds_all_paths (now : Int) :
    ∀ (cands : List ShowCandidate) (st : ScanState),
      ∀ c ∈ cands, hasPath (runScanCandidates now st cands).shows c.path := by
  intro cands
  induction cands with
  | nil => intro st c hc; exact absurd hc (List.not_mem_nil c)
  | cons c cs ih =>
    intro st d hd
    rcases List.mem_cons.mp hd with heq | hmem
    · rw [heq]
      exact runScan_preserves_path now cs (scanStep now st c) c.path
        (scanStep_adds_path now st c)
    · exact ih (scanStep now st c) d hmem

theorem runScan_all_updated (now : Int) :
    ∀ (cands : List ShowCandidate) (st : ScanState),
      (∀ c ∈ cands, hasPath st.shows c.path) →
      (runScanCandidates now st cands).inserted = st.inserted ∧
      (runScanCandidates now st cands).updated = st.updated + cands.length := by
  intro cands
  induction cands with
  | nil => intro st _; exact ⟨rfl, rfl⟩
  | cons c cs ih =>
    intro st hall
    have hc := hall c (List.mem_cons_self c cs)
    obtain ⟨hi, hu⟩ := scanStep_counts_updated now st c hc
    have hall' : ∀ d ∈ cs, hasPath (scanStep now st c).shows d.path :=
      fun d hd => scanStep_preserves_path now st c d.path
        (hall d (List.mem_cons_of_mem c hd))
    obtain ⟨hi', hu'⟩ := ih (scanStep now st c) hall'
    have hstep : runScanCandidates now st (c :: cs) =
        runScanCandidates now (scanStep now st c) cs := rfl
    refine ⟨?_, ?_⟩
    · rw [hstep, hi', hi]
    · rw [hstep, hu', hu, List.length_cons]
      omega

theorem I64_MAX_eq : I64_MAX = 9223372036854775807 := by norm_num [I64_MAX]

theorem I64_MIN_eq : I64_MIN = -9223372036854775808 := by norm_num [I64_MIN]

theorem saturatingAddI64_le_max (a b : Int) : saturatingAddI64 a b ≤ I64_MAX := by
  simp only [saturatingAddI64, I64_MAX_eq, I64_MIN_eq]
  omega

theorem le_saturatingAddI64 (a b : Int) (hb : 0 ≤ b) (ha : a ≤ I64_MAX) :
    a ≤ saturatingAddI64 a b := by
  simp only [saturatingAddI64, I64_MAX_eq, I64_MIN_eq] at *
  omega

/-- The copy loop never writes to the `shows` table. -/

theorem copyLoop_shows (jobId : Int) (source : FsPath) (total : Int)
    (se : Nat → Int × Int) (now : Int) :
    ∀ (walk : List WalkEvent) (db : Db) (copied : Int) (trace : List Int)
      (idx : Nat),
      (copyLoop jobId source total se now db copied trace idx walk).db.shows =
        db.shows := by
  intro walk
  induction walk with
  | nil => intro db copied trace idx; rfl
  | cons ev rest ih =>
    intro db copied trace idx
    cases ev with
    | entryErr msg => rfl
    | dirEntry p =>
      by_cases hp : p = source
      · rw [copyLoop, if_pos hp]
        exact ih db copied trace idx
      · rw [copyLoop, if_neg hp]
        cases stripPrefixPath p source with
        | none => rfl
        | some rel => exact ih db copied trace idx
    | fileEntry p size copyOk =>
      by_cases hp : p = source
      · rw [copyLoop, if_pos hp]
        exact ih db copied trace idx
      · rw [copyLoop, if_neg hp]
        cases stripPrefixPath p source with
        | none => rfl
        | some rel =>
          cases copyOk with
          | false => rfl
          | true => exact ih _ _ _ _

/-- Every total-bytes value a copy-loop run leaves in the `jobs` table is the
one it started with: per-file updates touch only progress, speed, ETA and the
timestamp. -/

theorem copyLoop_jobs_totals (jobId : Int) (source : FsPath) (total : Int)
    (se : Nat → Int × Int) (now : Int) :
    ∀ (walk : List WalkEvent) (db : Db) (copied : Int) (trace : List Int)
      (idx : Nat),
      (copyLoop jobId source total se now db copied trace idx walk).db.jobs.map
          (fun r => (r.id, r.total_bytes)) =
        db.jobs.map (fun r => (r.id, r.total_bytes)) := by
  intro walk
  induction walk with
  | nil => intro db copied trace idx; rfl
  | cons ev rest ih =>
    intro db copied trace idx
    cases ev with
    | entryErr msg => rfl
    | dirEntry p =>
      by_cases hp : p = source
      · rw [copyLoop, if_pos hp]
        exact ih db copied trace idx
      · rw [copyLoop, if_neg hp]
        cases stripPrefixPath p source with
        | none => rfl
        | some rel => exact ih db copied trace idx
    | fileEntry p size copyOk =>
      by_cases hp : p = source
      · rw [copyLoop, if_pos hp]
        exact ih db copied trace idx
      · rw [copyLoop, if_neg hp]
        cases stripPrefixPath p source with
        | none => rfl
        | some rel =>
          cases copyOk with
          | false => rfl
          | true =>
            have hupd : List.map (fun r => (r.id, r.total_bytes))
                (update_job_progress db jobId
                  (min (saturatingAddI64 copied (min (size : Int) I64_MAX)) total)
                  (se idx).1 (se idx).2 now).jobs =
                List.map (fun r => (r.id, r.total_bytes)) db.jobs := by
              unfold update_job_progress
              rw [List.map_map]
              apply List.map_congr_left
              intro x _
              by_cases hx : x.id = jobId
              · simp [hx]
              · simp [hx]
            exact Eq.trans (ih _ _ _ _) hupd

/-- Every persisted progress value of a copy-loop run is clamped to the
total. -/

theorem copyLoop_trace_le_total (jobId : Int) (source : FsPath) (total : Int)
    (se : Nat → Int × Int) (now : Int) :
    ∀ (walk : List WalkEvent) (db : Db) (copied : Int) (trace : List Int)
      (idx : Nat),
      (∀ v ∈ trace, v ≤ total) →
      ∀ v ∈ (copyLoop jobId source total se now db copied trace idx walk).trace,
        v ≤ total := by
  intro walk
  induction walk with
  | nil =>
    intro db copied trace idx htr v hv
    exact htr v (List.mem_reverse.mp hv)
  | cons ev rest ih =>
    intro db copied trace idx htr v hv
    cases ev with
    | entryErr msg => exact htr v (List.mem_reverse.mp hv)
    | dirEntry p =>
      by_cases hp : p = source
      · rw [copyLoop, if_pos hp] at hv
        exact ih db copied trace idx htr v hv
      · rw [copyLoop, if_neg hp] at hv
        cases hstrip : stripPrefixPath p source with
        | none =>
          rw [hstrip] at hv
          exact htr v (List.mem_reverse.mp hv)
        | some rel =>
          rw [hstrip] at hv
          exact ih db copied trace idx htr v hv
    | fileEntry p size copyOk =>
      by_cases hp : p = source
      · rw [copyLoop, if_pos hp] at hv
        exact ih db copied trace idx htr v hv
      · rw [copyLoop, if_neg hp] at hv
        cases hstrip : stripPrefixPath p source with
        | none =>
          rw [hstrip] at hv
          exact htr v (List.mem_reverse.mp hv)
        | some rel =>
          rw [hstrip] at hv
          cases copyOk with
          | false => exact htr v (List.mem_reverse.mp hv)
          | true =>
            refine ih _ _ _ _ ?_ v hv
            intro w hw
            rcases List.mem_cons.mp hw with rfl | hw'
            · exact min_le_right _ _
            · exact htr w hw'

/-- A successful copy-loop run accumulates, with `saturating_add`, the
clamped size of every copied file onto the counter it started from. -/

theorem copyLoop_fold (jobId : Int) (source : FsPath) (total : Int)
    (se : Nat → Int × Int) (now : Int) :
    ∀ (walk : List WalkEvent) (db : Db) (copied : Int) (trace : List Int)
      (idx : Nat) (c : Int),
      (copyLoop jobId source total se now db copied trace idx walk).result = .ok c →
      c = (walkFileSizes source walk).foldl copyStep copied := by
  intro walk
  induction walk with
  | nil =>
    intro db copied trace idx c h
    have hc : copied = c := by simpa [copyLoop] using h
    simp [walkFileSizes, hc]
  | cons ev rest ih =>
    intro db copied trace idx c h
    cases ev with
    | entryErr msg => exact absurd h (by simp [copyLoop])
    | dirEntry p =>
      by_cases hp : p = source
      · rw [copyLoop, if_pos hp] at h
        exact ih _ _ _ _ _ h
      · rw [copyLoop, if_neg hp] at h
        cases hstrip : stripPrefixPath p source with
        | none =>
          rw [hstrip] at h
          exact absurd h (by simp)
        | some rel =>
          rw [hstrip] at h
          exact ih _ _ _ _ _ h
    | fileEntry p size copyOk =>
      by_cases hp : p = source
      · rw [copyLoop, if_pos hp] at h
        have hsz : walkFileSizes source (WalkEvent.fileEntry p size copyOk :: rest) =
            walkFileSizes source rest := by
          simp [walkFileSizes, hp]
        rw [hsz]
        exact ih _ _ _ _ _ h
      · rw [copyLoop, if_neg hp] at h
        cases hstrip : stripPrefixPath p source with
        | none =>
          rw [hstrip] at h
          exact absurd h (by simp)
        | some rel =>
          rw [hstrip] at h
          cases copyOk with
          | false => exact absurd h (by simp)
          | true =>
            have hc := ih _ _ _ _ _ h
            have hsz : walkFileSizes source
                (WalkEvent.fileEntry p size true :: rest) =
                size :: walkFileSizes source rest := by
              simp [walkFileSizes, hp]
            rw [hc, hsz, List.foldl_cons]
            rfl

/-- The persisted progress values of a copy-loop run never fall below the
clamp of the counter's starting value: progress is never reset. -/

theorem copyLoop_trace_lower (jobId : Int) (source : FsPath) (total : Int)
    (se : Nat → Int × Int) (now : Int) (lo : Int) :
    ∀ (walk : List WalkEvent) (db : Db) (copied : Int) (trace : List Int)
      (idx : Nat),
      lo ≤ copied → copied ≤ I64_MAX →
      (∀ v ∈ trace, min lo total ≤ v) →
      ∀ v ∈ (copyLoop jobId source total se now db copied trace idx walk).trace,
        min lo total ≤ v := by
  intro walk
  induction walk with
  | nil =>
    intro db copied trace idx hlo hmax htr v hv
    exact htr v (List.mem_reverse.mp hv)
  | cons ev rest ih =>
    intro db copied trace idx hlo hmax htr v hv
    cases ev with
    | entryErr msg => exact htr v (List.mem_reverse.mp hv)
    | dirEntry p =>
      by_cases hp : p = source
      · rw [copyLoop, if_pos hp] at hv
        exact ih db copied trace idx hlo hmax htr v hv
      · rw [copyLoop, if_neg hp] at hv
        cases hstrip : stripPrefixPath p source with
        | none =>
          rw [hstrip] at hv
          exact htr v (List.mem_reverse.mp hv)
        | some rel =>
          rw [hstrip] at hv
          exact ih db copied trace idx hlo hmax htr v hv
    | fileEntry p size copyOk =>
      by_cases hp : p = source
      · rw [copyLoop, if_pos hp] at hv
        exact ih db copied trace idx hlo hmax htr v hv
      · rw [copyLoop, if_neg hp] at hv
        cases hstrip : stripPrefixPath p source with
        | none =>
          rw [hstrip] at hv
          exact htr v (List.mem_reverse.mp hv)
        | some rel =>
          rw [hstrip] at hv
          cases copyOk with
          | false => exact htr v (List.mem_reverse.mp hv)
          | true =>
            have hb : (0 : Int) ≤ min (size : Int) I64_MAX :=
              le_min (Int.ofNat_nonneg size) (by rw [I64_MAX_eq]; omega)
            have hcop : copied ≤ saturatingAddI64 copied (min (size : Int) I64_MAX) :=
              le_saturatingAddI64 _ _ hb hmax
            refine ih _ _ _ _ (le_trans hlo hcop)
              (saturatingAddI64_le_max _ _) ?_ v hv
            intro w hw
            rcases List.mem_cons.mp hw with rfl | hw'
            · exact min_le_min (le_trans hlo hcop) le_rfl
            · exact htr w hw'

/-- A tier resolved by `resolve_location_from_path` comes from prefix-testing
the path against the parsed non-blank roots, hot first. -/

theorem resolve_location_ok (path : FsPath) (config : Config) (loc : String)
    (h : resolve_location_from_path path config = .ok loc) :
    ∃ hot cold, trimmed_root config.hot_root = some hot ∧
      trimmed_root config.cold_root = some cold ∧
      ((pathStartsWith path hot = true ∧ loc = "hot") ∨
       (pathStartsWith path hot = false ∧ pathStartsWith path cold = true ∧
         loc = "cold")) := by
  unfold resolve_location_from_path at h
  cases hhot : trimmed_root config.hot_root with
  | none =>
    rw [hhot] at h
    exact absurd h (by simp)
  | some hot =>
    rw [hhot] at h
    dsimp only at h
    cases hcold : trimmed_root config.cold_root with
    | none =>
      rw [hcold] at h
      exact absurd h (by simp)
    | some cold =>
      rw [hcold] at h
      dsimp only at h
      refine ⟨hot, cold, rfl, rfl, ?_⟩
      cases hh : pathStartsWith path hot with
      | true =>
        rw [hh, if_pos rfl] at h
        exact Or.inl ⟨rfl, (Option.some_inj.mp (by simpa using h)).symm⟩
      | false =>
        rw [hh] at h
        simp only [Bool.false_eq_true, if_false] at h
        cases hcc : pathStartsWith path cold with
        | true =>
          rw [hcc, if_pos rfl] at h
          exact Or.inr ⟨rfl, rfl, (Option.some_inj.mp (by simpa using h)).symm⟩
        | false =>
          rw [hcc] at h
          simp at h

/-- After the finalization transaction, the moved show's row carries the
destination path and the resolved location. -/

theorem applyMoveTx_show (db : Db) (job : JobRow) (loc : String)
    (fp now : Int) :
    ∀ s ∈ (applyMoveTx db job loc fp now).shows, s.id = job.show_id →
      s.path = job.destination_path ∧ s.location = some loc := by
  intro s hs hid
  simp only [applyMoveTx, List.mem_map] at hs
  obtain ⟨s₀, hs₀, hss⟩ := hs
  by_cases h0 : s₀.id = job.show_id
  · rw [if_pos h0] at hss
    rw [← hss]
    exact ⟨rfl, rfl⟩
  · rw [if_neg h0] at hss
    rw [← hss] at hid
    exact absurd hid h0

/-- After the finalization transaction, the job's row is `success` with a
cleared error, the clamped final progress and zeroed speed/ETA. -/

theorem applyMoveTx_job (db : Db) (job : JobRow) (loc : String) (fp now : Int) :
    ∀ r ∈ (applyMoveTx db job loc fp now).jobs, r.id = job.id →
      r.status = STATUS_SUCCESS ∧ r.error_message = none ∧
      r.progress_bytes = some fp ∧ r.speed_bytes_per_sec = some 0 ∧
      r.eta_seconds = some 0 := by
  intro r hr hid
  simp only [applyMoveTx, List.mem_map] at hr
  obtain ⟨r₀, hr₀, hrr⟩ := hr
  by_cases h0 : r₀.id = job.id
  · rw [if_pos h0] at hrr
    rw [← hrr]
    exact ⟨rfl, rfl, rfl, rfl, rfl⟩
  · rw [if_neg h0] at hrr
    rw [← hrr] at hid
    exact absurd hid h0

/-- The transaction keeps every job row's id and total-bytes column. -/

theorem applyMoveTx_jobs_totals (db : Db) (job : JobRow) (loc : String)
    (fp now : Int) :
    (applyMoveTx db job loc fp now).jobs.map (fun r => (r.id, r.total_bytes)) =
      db.jobs.map (fun r => (r.id, r.total_bytes)) := by
  unfold applyMoveTx
  rw [List.map_map]
  apply List.map_congr_left
  intro x _
  by_cases hx : x.id = job.id
  · simp [hx]
  · simp [hx]

/-- Decomposition of a successful `execute_job`: the walk completed with some
final counter, the destination's tier resolved, the transaction flag was set,
and the final database is the transaction applied to the post-copy
database. -/

theorem execute_job_ok (db : Db) (config : Config) (job : JobRow)
    (walk : List WalkEvent) (se : Nat → Int × Int) (txOk : Bool) (now : Int)
    (h : (execute_job db config job walk se txOk now).2 = .ok ()) :
    ∃ loc copied,
      resolve_location_from_path (parsePath job.destination_path) config =
        .ok loc ∧
      txOk = true ∧
      (copyLoop job.id (parsePath job.source_path)
          (max (job.total_bytes.getD 0) 0) se now db
          (job.progress_bytes.getD 0) [] 0 walk).result = .ok copied ∧
      (execute_job db config job walk se txOk now).1 =
        applyMoveTx
          (copyLoop job.id (parsePath job.source_path)
            (max (job.total_bytes.getD 0) 0) se now db
            (job.progress_bytes.getD 0) [] 0 walk).db
          job loc (min copied (max (job.total_bytes.getD 0) 0)) now := by
  unfold execute_job at h ⊢
  dsimp only at h ⊢
  cases hres : (copyLoop job.id (parsePath job.source_path)
      (max (job.total_bytes.getD 0) 0) se now db
      (job.progress_bytes.getD 0) [] 0 walk).result with
  | error e =>
    rw [hres] at h
    exact absurd h (by simp)
  | ok copied =>
    rw [hres] at h
    dsimp only at h
    cases hloc : resolve_location_from_path (parsePath job.destination_path)
        config with
    | error e =>
      rw [hloc] at h
      exact absurd h (by simp)
    | ok loc =>
      rw [hloc] at h
      dsimp only at h
      cases txOk with
      | false => exact absurd h (by simp)
      | true => exact ⟨loc, copied, rfl, rfl, rfl, by simp⟩

/-- With a failing finalization transaction `execute_job` always errors, and
the `shows` table is untouched. -/

theorem execute_job_txfail (db : Db) (config : Config) (job : JobRow)
    (walk : List WalkEvent) (se : Nat → Int × Int) (now : Int) :
    (∃ e, (execute_job db config job walk se false now).2 = .error e) ∧
    (execute_job db config job walk se false now).1.shows = db.shows := by
  unfold execute_job
  dsimp only
  cases hres : (copyLoop job.id (parsePath job.source_path)
      (max (job.total_bytes.getD 0) 0) se now db
      (job.progress_bytes.getD 0) [] 0 walk).result with
  | error e =>
    exact ⟨⟨e, rfl⟩, copyLoop_shows _ _ _ _ _ _ _ _ _ _⟩
  | ok copied =>
    cases hloc : resolve_location_from_path (parsePath job.destination_path)
        config with
    | error e =>
      exact ⟨⟨e, rfl⟩, copyLoop_shows _ _ _ _ _ _ _ _ _ _⟩
    | ok loc =>
      exact ⟨⟨.Database "transaction failed", rfl⟩,
        copyLoop_shows _ _ _ _ _ _ _ _ _ _⟩

/-- Field shape of the job row inserted by a successful admission. -/

theorem create_move_job_ok_shape (db : Db) (config : Config) (show_id : Int)
    (target : String) (now : Int) (db' : Db) (row : JobRow)
    (h : create_move_job db config show_id target now = (db', .ok row)) :
    row.status = STATUS_QUEUED ∧ row.progress_bytes = some 0 ∧
    row.speed_bytes_per_sec = some 0 ∧ row.eta_seconds = some 0 ∧
    row.error_message = none ∧ row.created_at = some now ∧
    (∃ t, row.total_bytes = some t ∧ 0 ≤ t) ∧
    db' = { db with jobs := db.jobs ++ [row],
                    next_job_id := db.next_job_id + 1 } := by
  unfold create_move_job at h
  cases hnt : normalize_target target with
  | none =>
    rw [hnt] at h
    simp at h
  | some tgt =>
    rw [hnt] at h
    dsimp only at h
    cases hfind : db.shows.find? (fun s' => s'.id == show_id) with
    | none =>
      rw [hfind] at h
      simp at h
    | some s =>
      rw [hfind] at h
      dsimp only at h
      cases hhot : trimmed_root config.hot_root with
      | none =>
        rw [hhot] at h
        simp at h
      | some hot =>
        rw [hhot] at h
        dsimp only at h
        cases hcold : trimmed_root config.cold_root with
        | none =>
          rw [hcold] at h
          simp at h
        | some cold =>
          rw [hcold] at h
          dsimp only at h
          cases hdet : detect_location (parsePath s.path) hot cold with
          | error e =>
            rw [hdet] at h
            simp at h
          | ok locroot =>
            obtain ⟨current_location, current_root⟩ := locroot
            rw [hdet] at h
            dsimp only at h
            by_cases hl : current_location = tgt
            · rw [if_pos hl] at h
              simp at h
            · rw [if_neg hl] at h
              cases hstrip : stripPrefixPath (parsePath s.path) current_root with
              | none =>
                rw [hstrip] at h
                simp at h
              | some relative =>
                rw [hstrip] at h
                dsimp only at h
                rw [Prod.mk.injEq] at h
                obtain ⟨hdb, hrow⟩ := h
                have hrr := Except.ok.inj hrow
                subst hrr
                refine ⟨rfl, rfl, rfl, rfl, rfl, rfl,
                  ⟨max (s.size_bytes.getD 0) 0, rfl, le_max_right _ _⟩, hdb.symm⟩

/-! ## Claim theorems -/

/-- **C10**: a path lying under both the hot root and the cold root (possible
when one configured root is a component-prefix of the other) is classified
`hot` by all three location-determination operations — the scanner's
`determine_location`, admission's `detect_location`, and finalization's
`resolve_location_from_path` — because each tests the hot root before the
cold root. -/

theorem under_both_roots_all_hot (p hot cold : FsPath) (config : Config)
    (hhot : trimmed_root config.hot_root = some hot)
    (hcold : trimmed_root config.cold_root = some cold)
    (h1 : pathStartsWith p hot = true)
    (h2 : pathStartsWith p cold = true) :
    determine_location p (sanitize_root config.hot_root)
        (sanitize_root config.cold_root) = some "hot" ∧
    detect_location p hot cold = .ok ("hot", hot) ∧
    resolve_location_from_path p config = .ok "hot" := by
  refine ⟨?_, ?_, ?_⟩
  · rw [sanitize_root_eq_trimmed_root, sanitize_root_eq_trimmed_root, hhot, hcold]
    simp [determine_location, h1]
  · simp [detect_location, h1]
  · simp [resolve_location_from_path, hhot, hcold, h1]

theorem under_both_roots_all_hot_witness :
    determine_location ["tank", "media", "cold", "ShowA"]
        (sanitize_root nestedRootsConfig.hot_root)
        (sanitize_root nestedRootsConfig.cold_root) = some "hot" ∧
    detect_location ["tank", "media", "cold", "ShowA"] ["tank", "media"]
        ["tank", "media", "cold"] = .ok ("hot", ["tank", "media"]) ∧
    resolve_location_from_path ["tank", "media", "cold", "ShowA"]
        nestedRootsConfig = .ok "hot" :=
  under_both_roots_all_hot ["tank", "media", "cold", "ShowA"]
    ["tank", "media"] ["tank", "media", "cold"] nestedRootsConfig
    (by decide) (by decide) (by decide) (by decide)

/-- **C6**: when the subtree holds `n ≥ 1` per-episode `.nfo` files (extension
`.nfo`, any file named `tvshow.nfo` excluded), the derived episode count is
`n` regardless of video files; with zero such `.nfo` files it is the recursive
count of files with a video extension. (The `i64::MAX` bounds discharge the
source's clamping; both counts are far below it for any real directory.) -/

theorem derived_episode_count_spec (t : FsTree)
    (hn : (count_episode_nfo_files t : Int) ≤ I64_MAX)
    (hv : (video_episode_count t : Int) ≤ I64_MAX) :
    (1 ≤ count_episode_nfo_files t →
       derived_episode_count t = (count_episode_nfo_files t : Int)) ∧
    (count_episode_nfo_files t = 0 →
       derived_episode_count t = (video_episode_count t : Int)) := by
  unfold derived_episode_count clamp_to_i64
  refine ⟨fun h => ?_, fun h => ?_⟩
  · rw [if_pos (by omega : count_episode_nfo_files t > 0)]
    exact min_eq_left hn
  · rw [if_neg (by omega : ¬ count_episode_nfo_files t > 0)]
    exact min_eq_left hv

theorem derived_episode_count_spec_witness :
    (1 ≤ count_episode_nfo_files sampleShowTree ∧
       derived_episode_count sampleShowTree = 2) ∧
    (count_episode_nfo_files sampleShowTreeNoNfo = 0 ∧
       derived_episode_count sampleShowTreeNoNfo = 5) := by
  refine ⟨⟨by decide, ?_⟩, ⟨by decide, ?_⟩⟩
  · have h := (derived_episode_count_spec sampleShowTree (by decide) (by decide)).1
      (by decide)
    rw [h]; decide
  · have h := (derived_episode_count_spec sampleShowTreeNoNfo (by decide) (by decide)).2
      (by decide)
    rw [h]; decide

/-- **C8**: when `tvshow.nfo` is present and its event stream yields a title —
necessarily the non-empty trim of some text content encountered inside a
`<title>` element — the show is titled by it with provenance `fs_scan_nfo`;
when the file is absent/unreadable or yields no such text, the title is the
directory's base name with provenance `fs_scan`. -/

theorem title_provenance_spec :
    (∀ (folder : String) (evs : List XmlEvent) (t : String),
       extract_title_from_nfo evs = some t →
       titleAndSource folder (some evs) = (t, "fs_scan_nfo") ∧
       t ≠ "" ∧ ∃ c, XmlEvent.text c ∈ evs ∧ t = strTrim c) ∧
    (∀ folder : String, titleAndSource folder none = (folder, "fs_scan")) ∧
    (∀ (folder : String) (evs : List XmlEvent),
       extract_title_from_nfo evs = none →
       titleAndSource folder (some evs) = (folder, "fs_scan")) := by
  refine ⟨?_, ?_, ?_⟩
  · intro folder evs t h
    refine ⟨by simp [titleAndSource, h], (extractTitleLoop_text_mem evs false t h).1,
      (extractTitleLoop_text_mem evs false t h).2⟩
  · intro folder
    simp [titleAndSource]
  · intro folder evs h
    simp [titleAndSource, h]

theorem title_provenance_spec_witness :
    titleAndSource "ShowDir" (some sampleNfoEvents) = ("Example", "fs_scan_nfo") ∧
    titleAndSource "ShowDir" none = ("ShowDir", "fs_scan") :=
  ⟨(title_provenance_spec.1 "ShowDir" sampleNfoEvents "Example" (by decide)).1,
   title_provenance_spec.2.1 "ShowDir"⟩

/-- **C7**: the upsert matches by exact canonical path string and reports
`Updated` exactly when a row with that path already exists (`Inserted`
otherwise); hence a second scanner run over an unchanged filesystem — the same
candidate list — and the index produced by the first run yields `inserted = 0`
and `updated` equal to the number of discovered shows. -/

theorem scan_second_run_upserts_only (now₁ now₂ : Int) :
    (∀ (shows : List ShowRow) (nextId : Int) (c : ShowCandidate),
       (upsert_show shows nextId c now₁).2.2 = .Updated ↔
         ∃ s ∈ shows, s.path = c.path) ∧
    (∀ (shows : List ShowRow) (nextId : Int) (cands : List ShowCandidate),
       (runScanCandidates now₂
          { shows := (runScanCandidates now₁ ⟨shows, nextId, 0, 0⟩ cands).shows,
            nextId := (runScanCandidates now₁ ⟨shows, nextId, 0, 0⟩ cands).nextId,
            inserted := 0, updated := 0 } cands).inserted = 0 ∧
       (runScanCandidates now₂
          { shows := (runScanCandidates now₁ ⟨shows, nextId, 0, 0⟩ cands).shows,
            nextId := (runScanCandidates now₁ ⟨shows, nextId, 0, 0⟩ cands).nextId,
            inserted := 0, updated := 0 } cands).updated = cands.length) := by
  constructor
  · intro shows nextId c
    exact upsert_show_updated_iff shows nextId c now₁
  · intro shows nextId cands
    have hpre : ∀ c ∈ cands,
        hasPath (runScanCandidates now₁ ⟨shows, nextId, 0, 0⟩ cands).shows c.path :=
      fun c hc => runScan_adds_all_paths now₁ cands ⟨shows, nextId, 0, 0⟩ c hc
    obtain ⟨hi, hu⟩ := runScan_all_updated now₂ cands
      { shows := (runScanCandidates now₁ ⟨shows, nextId, 0, 0⟩ cands).shows,
        nextId := (runScanCandidates now₁ ⟨shows, nextId, 0, 0⟩ cands).nextId,
        inserted := 0, updated := 0 } hpre
    refine ⟨?_, ?_⟩
    · simpa using hi
    · simpa using hu

theorem scan_second_run_upserts_only_witness :
    ((upsert_show [hotShowRow] 5 candShowARescan 7).2.2 = .Updated) ∧
    (runScanCandidates 8
        { shows := (runScanCandidates 7 ⟨[], 1, 0, 0⟩ [candShowA, candShowB]).shows,
          nextId := (runScanCandidates 7 ⟨[], 1, 0, 0⟩ [candShowA, candShowB]).nextId,
          inserted := 0, updated := 0 } [candShowA, candShowB]).inserted = 0 ∧
    (runScanCandidates 8
        { shows := (runScanCandidates 7 ⟨[], 1, 0, 0⟩ [candShowA, candShowB]).shows,
          nextId := (runScanCandidates 7 ⟨[], 1, 0, 0⟩ [candShowA, candShowB]).nextId,
          inserted := 0, updated := 0 } [candShowA, candShowB]).updated = 2 := by
  refine ⟨?_, ?_, ?_⟩
  · have hpa : hotShowRow.path = candShowARescan.path := by
      simp only [hotShowRow, candShowARescan]
    exact ((scan_second_run_upserts_only 7 8).1 [hotShowRow] 5
      candShowARescan).mpr ⟨hotShowRow, List.mem_singleton_self _, hpa⟩
  · exact ((scan_second_run_upserts_only 7 8).2 [] 1 [candShowA, candShowB]).1
  · have h := ((scan_second_run_upserts_only 7 8).2 [] 1 [candShowA, candShowB]).2
    simpa using h

/-- **C4**: a dequeued job is eligible (`queued`/`running`), no eligible job
sorts strictly before it (so any `running` job is preferred over all `queued`
ones, ties broken by oldest `created_at`), the returned copy is `running`, a
selected `queued` row is marked `running` with its error cleared, a selected
`running` row is returned without any table change, and the table's id column
is unchanged (no duplicate row) — hence after a restart the previously
`running` job itself is resumed. -/

theorem fetch_next_job_spec (db : Db) (now : Int) (j : JobRow) (db' : Db)
    (h : fetch_next_job db now = (some j, db')) :
    ∃ j₀, j₀ ∈ db.jobs ∧ j₀.id = j.id ∧ eligibleJob j₀ = true ∧
      (∀ k ∈ db.jobs, eligibleJob k = true → jobBefore k j₀ = false) ∧
      (∀ k ∈ db.jobs, k.status = STATUS_RUNNING → j₀.status = STATUS_RUNNING) ∧
      j = { j₀ with status := STATUS_RUNNING } ∧
      (j₀.status = STATUS_RUNNING → db' = db) ∧
      (j₀.status ≠ STATUS_RUNNING → j₀.status = STATUS_QUEUED ∧
        (∀ r ∈ db'.jobs, r.id = j.id →
          r.status = STATUS_RUNNING ∧ r.error_message = none)) ∧
      j.status = STATUS_RUNNING ∧
      db'.jobs.map (fun r => r.id) = db.jobs.map (fun r => r.id) := by
  unfold fetch_next_job at h
  cases hsel : selectNextJob db.jobs with
  | none =>
    rw [hsel] at h
    exact absurd h (by simp)
  | some job =>
    rw [hsel] at h
    dsimp only at h
    unfold selectNextJob at hsel
    have hmem0 := foldl_selStep_mem _ _ _ hsel
    have hmemf : job ∈ db.jobs.filter eligibleJob := by
      rcases hmem0 with hcontra | hm
      · exact absurd hcontra (by simp)
      · exact hm
    have hjobs : job ∈ db.jobs := (List.mem_filter.mp hmemf).1
    have helig : eligibleJob job = true := (List.mem_filter.mp hmemf).2
    have hmin := (foldl_selStep_min _ _ _ hsel).2
    have hminAll : ∀ k ∈ db.jobs, eligibleJob k = true → jobBefore k job = false :=
      fun k hk he => hmin k (List.mem_filter.mpr ⟨hk, he⟩)
    have hrunPref : ∀ k ∈ db.jobs, k.status = STATUS_RUNNING →
        job.status = STATUS_RUNNING := by
      intro k hk hkr
      have he : eligibleJob k = true := by
        simp [eligibleJob, hkr]
      have hb := hminAll k hk he
      by_cases hjr : job.status = STATUS_RUNNING
      · exact hjr
      · exfalso
        have hlt : statusRank k < statusRank job := by
          simp [statusRank, hkr, hjr]
        have : jobBefore k job = true := by
          simp [jobBefore, hlt]
        rw [hb] at this
        exact Bool.noConfusion this
    by_cases hjr : job.status = STATUS_RUNNING
    · rw [if_neg (by simp [hjr])] at h
      rw [Prod.mk.injEq] at h
      obtain ⟨hj, hdb⟩ := h
      have hjj : job = j := Option.some_inj.mp hj
      refine ⟨job, hjobs, by rw [hjj], helig, hminAll, hrunPref, ?_, fun _ => hdb.symm,
        fun hne => absurd hjr hne, by rw [← hjj]; exact hjr, by rw [hdb]⟩
      rw [← hjj, ← hjr]
    · rw [if_pos hjr] at h
      rw [Prod.mk.injEq] at h
      obtain ⟨hj, hdb⟩ := h
      have hjj : ({ job with status := STATUS_RUNNING } : JobRow) = j :=
        Option.some_inj.mp hj
      have hq : job.status = STATUS_QUEUED := by
        have he : job.status = STATUS_QUEUED ∨ job.status = STATUS_RUNNING := by
          simpa [eligibleJob] using helig
        rcases he with hq | hr
        · exact hq
        · exact absurd hr hjr
      have hid : job.id = j.id := by rw [← hjj]
      refine ⟨job, hjobs, hid, helig, hminAll, hrunPref, hjj.symm,
        fun hr => absurd hr hjr, fun _ => ⟨hq, ?_⟩, by rw [← hjj], ?_⟩
      · intro r hr hrid
        rw [← hdb] at hr
        simp only [List.mem_map] at hr
        obtain ⟨r₀, hr₀, hrr⟩ := hr
        by_cases hr₀id : r₀.id = job.id
        · rw [if_pos hr₀id] at hrr
          rw [← hrr]
          exact ⟨rfl, rfl⟩
        · rw [if_neg hr₀id] at hrr
          rw [← hrr] at hrid
          rw [← hid] at hrid
          exact absurd hrid hr₀id
      · rw [← hdb]
        exact map_ids_of_id_preserving _
          (fun x => by by_cases hx : x.id = job.id <;> simp [hx]) db.jobs

/-- `create_move_job` either leaves the database untouched (every error path)
or appends exactly the one row it returns. -/

theorem create_move_job_db_cases (db : Db) (config : Config) (show_id : Int)
    (target : String) (now : Int) :
    (create_move_job db config show_id target now).1 = db ∨
    ∃ row, create_move_job db config show_id target now =
      ({ db with jobs := db.jobs ++ [row], next_job_id := db.next_job_id + 1 },
       .ok row) := by
  unfold create_move_job
  cases normalize_target target with
  | none => exact Or.inl rfl
  | some tgt =>
    dsimp only
    cases db.shows.find? (fun s' => s'.id == show_id) with
    | none => exact Or.inl rfl
    | some s =>
      dsimp only
      cases trimmed_root config.hot_root with
      | none => exact Or.inl rfl
      | some hot =>
        dsimp only
        cases trimmed_root config.cold_root with
        | none => exact Or.inl rfl
        | some cold =>
          dsimp only
          cases detect_location (parsePath s.path) hot cold with
          | error e => exact Or.inl rfl
          | ok loc =>
            obtain ⟨current_location, current_root⟩ := loc
            dsimp only
            by_cases hl : current_location = tgt
            · rw [if_pos hl]
              exact Or.inl rfl
            · rw [if_neg hl]
              cases stripPrefixPath (parsePath s.path) current_root with
              | none => exact Or.inl rfl
              | some relative =>
                dsimp only
                exact Or.inr ⟨_, rfl⟩

/-- **C5**: whenever `create_move_job` returns an admission error (every error
it can return — InvalidTarget, ShowNotFound, MissingRoot, PathMismatch,
AlreadyInLocation), the database is returned unchanged: no job row is inserted
and the shows table is untouched (the source performs no filesystem call at
admission). In particular a request targeting the tier the show already
occupies fails with `AlreadyInLocation` and leaves the database unchanged. -/

theorem create_move_job_admission_errors (db : Db) (config : Config)
    (show_id : Int) (target : String) (now : Int) :
    (∀ (db' : Db) (e : JobError),
       create_move_job db config show_id target now = (db', .error e) →
       db' = db) ∧
    (∀ (s : ShowRow) (hot cold root : FsPath) (tgt : String),
       normalize_target target = some tgt →
       db.shows.find? (fun s' => s'.id == show_id) = some s →
       trimmed_root config.hot_root = some hot →
       trimmed_root config.cold_root = some cold →
       detect_location (parsePath s.path) hot cold = .ok (tgt, root) →
       create_move_job db config show_id target now =
         (db, .error .AlreadyInLocation)) := by
  constructor
  · intro db' e he
    rcases create_move_job_db_cases db config show_id target now with h1 | ⟨row, h2⟩
    · rw [he] at h1
      simpa using h1
    · rw [h2] at he
      rw [Prod.mk.injEq] at he
      exact Except.noConfusion he.2
  · intro s hot cold root tgt hnt hfind hhot hcold hdet
    unfold create_move_job
    simp only [hnt, hfind, hhot, hcold, hdet]
    simp

theorem create_move_job_admission_errors_witness :
    create_move_job admissionDb tierConfig 1 "hot" 50 =
      (admissionDb, .error .AlreadyInLocation) :=
  (create_move_job_admission_errors admissionDb tierConfig 1 "hot" 50).2
    hotShowRow ["tank", "media"] ["tank", "cold"] ["tank", "media"] "hot"
    (by decide) (by decide) (by decide) (by decide) (by decide)

theorem fetch_next_job_spec_witness :
    fetch_next_job resumeDb 99 = (some runningJobRow, resumeDb) ∧
    runningJobRow.status = STATUS_RUNNING := by
  have h : fetch_next_job resumeDb 99 = (some runningJobRow, resumeDb) := by decide
  obtain ⟨j₀, _, _, _, _, _, _, _, _, hrun, _⟩ :=
    fetch_next_job_spec resumeDb 99 runningJobRow resumeDb h
  exact ⟨h, hrun⟩

/-- **C1**: when a job's execution succeeds, the referenced show's row ends
with path equal to the job's destination_path, and its location is the tier
obtained by prefix-testing that path against the two configured roots (hot
first) — in particular the path starts with the root of the recorded tier. -/

theorem job_success_show_relocated (db : Db) (config : Config) (job : JobRow)
    (walk : List WalkEvent) (se : Nat → Int × Int) (txOk : Bool) (now : Int)
    (h : (execute_job db config job walk se txOk now).2 = .ok ()) :
    ∃ hot cold, trimmed_root config.hot_root = some hot ∧
      trimmed_root config.cold_root = some cold ∧
      ∀ s ∈ (execute_job db config job walk se txOk now).1.shows,
        s.id = job.show_id →
          s.path = job.destination_path ∧
          ((pathStartsWith (parsePath job.destination_path) hot = true ∧
              s.location = some "hot") ∨
           (pathStartsWith (parsePath job.destination_path) hot = false ∧
              pathStartsWith (parsePath job.destination_path) cold = true ∧
              s.location = some "cold")) := by
  obtain ⟨loc, copied, hloc, htx, hres, hdb⟩ :=
    execute_job_ok db config job walk se txOk now h
  obtain ⟨hot, cold, hhot, hcold, hcase⟩ := resolve_location_ok _ _ _ hloc
  refine ⟨hot, cold, hhot, hcold, ?_⟩
  intro s hs hid
  rw [hdb] at hs
  obtain ⟨hpath, hlocs⟩ := applyMoveTx_show _ _ _ _ _ s hs hid
  refine ⟨hpath, ?_⟩
  rcases hcase with ⟨hsw, rfl⟩ | ⟨hsw1, hsw2, rfl⟩
  · exact Or.inl ⟨hsw, hlocs⟩
  · exact Or.inr ⟨hsw1, hsw2, hlocs⟩

theorem job_success_show_relocated_witness :
    (execute_job moveDb tierConfig moveJobRow moveWalk (fun _ => (0, 0))
        true 99).2 = .ok () ∧
    ∀ s ∈ (execute_job moveDb tierConfig moveJobRow moveWalk (fun _ => (0, 0))
        true 99).1.shows,
      s.id = moveJobRow.show_id → s.path = moveJobRow.destination_path := by
  have h : (execute_job moveDb tierConfig moveJobRow moveWalk (fun _ => (0, 0))
      true 99).2 = .ok () := by decide
  obtain ⟨hot, cold, _, _, hall⟩ := job_success_show_relocated moveDb tierConfig
    moveJobRow moveWalk (fun _ => (0, 0)) true 99 h
  exact ⟨h, fun s hs hid => (hall s hs hid).1⟩

/-- The worker marks a job `failed`, with the rendered error, when its
execution errors. -/

theorem run_job_of_error (db : Db) (config : Config) (job : JobRow)
    (walk : List WalkEvent) (se : Nat → Int × Int) (txOk : Bool) (now : Int)
    (e : JobError)
    (he : (execute_job db config job walk se txOk now).2 = .error e) :
    run_job db config job walk se txOk now =
      finalize_job_status (execute_job db config job walk se txOk now).1
        job.id STATUS_FAILED (some (errMsg e)) none now := by
  unfold run_job
  rcases hex : execute_job db config job walk se txOk now with ⟨db₁, r⟩
  rw [hex] at he
  dsimp only at he ⊢
  subst he
  rfl

/-- **C2**: with a committing transaction, success finalization updates the
show row (path rewritten to destination_path, location recomputed from the
destination) and the job row (status `success`, error cleared, progress set to
the clamped copied counter `min(copied, total)`, speed/ETA zeroed) together;
when the finalization transaction fails, the job ends `failed` with the error
captured in error_message (and speed/ETA zeroed) while the shows table is left
exactly as before the job ran. -/
theorem finalize_tx_spec (db : Db) (config : Config) (job : JobRow)
    (walk : List WalkEvent) (se : Nat → Int × Int) (now : Int) :
    ((execute_job db config job walk se true now).2 = .ok () →
       ∃ loc copied,
         resolve_location_from_path (parsePath job.destination_path) config =
           .ok loc ∧
         (copyLoop job.id (parsePath job.source_path)
             (max (job.total_bytes.getD 0) 0) se now db
             (job.progress_bytes.getD 0) [] 0 walk).result = .ok copied ∧
         (∀ s ∈ (execute_job db config job walk se true now).1.shows,
            s.id = job.show_id →
              s.path = job.destination_path ∧ s.location = some loc) ∧
         (∀ r ∈ (execute_job db config job walk se true now).1.jobs,
            r.id = job.id →
              r.status = STATUS_SUCCESS ∧ r.error_message = none ∧
              r.progress_bytes =
                some (min copied (max (job.total_bytes.getD 0) 0)) ∧
              r.speed_bytes_per_sec = some 0 ∧ r.eta_seconds = some 0)) ∧
    ((run_job db config job walk se false now).shows = db.shows ∧
     (∀ r ∈ (run_job db config job walk se false now).jobs, r.id = job.id →
        r.status = STATUS_FAILED ∧ r.error_message.isSome = true ∧
        r.speed_bytes_per_sec = some 0 ∧ r.eta_seconds = some 0)) := by
  constructor
  · intro h
    obtain ⟨loc, copied, hloc, _, hres, hdb⟩ :=
      execute_job_ok db config job walk se true now h
    refine ⟨loc, copied, hloc, hres, ?_, ?_⟩
    · intro s hs hid
      rw [hdb] at hs
      exact applyMoveTx_show _ _ _ _ _ s hs hid
    · intro r hr hid
      rw [hdb] at hr
      exact applyMoveTx_job _ _ _ _ _ r hr hid
  · obtain ⟨⟨e, he⟩, hshows⟩ := execute_job_txfail db config job walk se now
    have hrun := run_job_of_error db config job walk se false now e he
    constructor
    · rw [hrun]
      unfold finalize_job_status
      exact hshows
    · intro r hr hid
      rw [hrun] at hr
      unfold finalize_job_status at hr
      simp only [List.mem_map] at hr
      obtain ⟨r₀, hr₀, hrr⟩ := hr
      by_cases h0 : r₀.id = job.id
      · rw [if_pos h0] at hrr
        rw [← hrr]
        exact ⟨rfl, rfl, rfl, rfl⟩
      · rw [if_neg h0] at hrr
        rw [← hrr] at hid
        exact absurd hid h0

theorem finalize_tx_spec_witness :
    (∀ s ∈ (execute_job moveDb tierConfig moveJobRow moveWalk (fun _ => (0, 0))
        true 99).1.shows,
       s.id = moveJobRow.show_id →
         s.path = moveJobRow.destination_path ∧ s.location = some "cold") ∧
    (∀ r ∈ (execute_job moveDb tierConfig moveJobRow moveWalk (fun _ => (0, 0))
        true 99).1.jobs,
       r.id = moveJobRow.id → r.status = STATUS_SUCCESS ∧
         r.error_message = none ∧ r.progress_bytes = some 60 ∧
         r.speed_bytes_per_sec = some 0 ∧ r.eta_seconds = some 0) ∧
    (run_job moveDb tierConfig moveJobRow moveWalk (fun _ => (0, 0))
        false 99).shows = moveDb.shows := by
  have h := finalize_tx_spec moveDb tierConfig moveJobRow moveWalk
    (fun _ => (0, 0)) 99
  obtain ⟨loc, copied, hloc, hres, hshows, hjobs⟩ := h.1 (by decide)
  have hlc : loc = "cold" := by
    have hcold : resolve_location_from_path
        (parsePath moveJobRow.destination_path) tierConfig =
        Except.ok "cold" := by decide
    exact (Except.ok.inj (hcold ▸ hloc)).symm
  have hcp : copied = 60 := by
    have hsixty : (copyLoop moveJobRow.id (parsePath moveJobRow.source_path)
        (max (moveJobRow.total_bytes.getD 0) 0) (fun _ => (0, 0)) 99 moveDb
        (moveJobRow.progress_bytes.getD 0) [] 0 moveWalk).result =
        Except.ok 60 := by decide
    exact (Except.ok.inj (hsixty ▸ hres)).symm
  refine ⟨?_, ?_, h.2.1⟩
  · intro s hs hid
    obtain ⟨hp, hlo⟩ := hshows s hs hid
    rw [hlc] at hlo
    exact ⟨hp, hlo⟩
  · intro r hr hid
    obtain ⟨h1, h2, h3, h4, h5⟩ := hjobs r hr hid
    refine ⟨h1, h2, ?_, h4, h5⟩
    rw [h3, hcp]
    decide

/-- **C3**: persisted progress never exceeds persisted total, at every
lifecycle point: an admitted job starts at progress 0 with a non-negative
total; every per-file progress update during the copy walk is clamped to the
total; failure finalization leaves progress and total untouched; and the row
updated by success finalization carries a progress no larger than its
unchanged total. -/

theorem progress_never_exceeds_total (db : Db) (config : Config) :
    (∀ (show_id : Int) (target : String) (now : Int) (db' : Db) (row : JobRow),
       create_move_job db config show_id target now = (db', .ok row) →
       row.progress_bytes = some 0 ∧
       ∃ t, row.total_bytes = some t ∧ 0 ≤ t) ∧
    (∀ (jobId : Int) (source : FsPath) (t : Int) (se : Nat → Int × Int)
       (now copied : Int) (walk : List WalkEvent),
       0 ≤ t →
       ∀ v ∈ (copyLoop jobId source (max t 0) se now db copied [] 0
           walk).trace, v ≤ t) ∧
    (∀ (em : Option String) (now : Int) (j : JobRow) (p t : Int),
       j.progress_bytes = some p → j.total_bytes = some t → p ≤ t →
       (finalizeRow STATUS_FAILED em none now j).progress_bytes = some p ∧
       (finalizeRow STATUS_FAILED em none now j).total_bytes = some t) ∧
    (∀ (job : JobRow) (walk : List WalkEvent) (se : Nat → Int × Int)
       (txOk : Bool) (now t : Int),
       job.total_bytes = some t → 0 ≤ t →
       (∀ r₀ ∈ db.jobs, r₀.id = job.id → r₀.total_bytes = some t) →
       (execute_job db config job walk se txOk now).2 = .ok () →
       ∀ r ∈ (execute_job db config job walk se txOk now).1.jobs,
         r.id = job.id →
           ∃ p, r.progress_bytes = some p ∧ r.total_bytes = some t ∧ p ≤ t) := by
  refine ⟨?_, ?_, ?_, ?_⟩
  · intro show_id target now db' row h
    obtain ⟨_, hp, _, _, _, _, ht, _⟩ :=
      create_move_job_ok_shape db config show_id target now db' row h
    exact ⟨hp, ht⟩
  · intro jobId source t se now copied walk h0t v hv
    have := copyLoop_trace_le_total jobId source (max t 0) se now walk db
      copied [] 0 (by simp) v hv
    omega
  · intro em now j p t hp ht _
    unfold finalizeRow
    exact ⟨by rw [← hp], by rw [← ht]⟩
  · intro job walk se txOk now t hjt h0t hinv h r hr hid
    obtain ⟨loc, copied, hloc, htx, hres, hdb⟩ :=
      execute_job_ok db config job walk se txOk now h
    rw [hdb] at hr
    obtain ⟨_, _, hprog, _, _⟩ := applyMoveTx_job _ _ _ _ _ r hr hid
    have htotals : (applyMoveTx
        (copyLoop job.id (parsePath job.source_path)
          (max (job.total_bytes.getD 0) 0) se now db
          (job.progress_bytes.getD 0) [] 0 walk).db
        job loc (min copied (max (job.total_bytes.getD 0) 0)) now).jobs.map
          (fun x => (x.id, x.total_bytes)) =
        db.jobs.map (fun x => (x.id, x.total_bytes)) := by
      rw [applyMoveTx_jobs_totals]
      exact copyLoop_jobs_totals _ _ _ _ _ _ _ _ _ _
    have hmem : (r.id, r.total_bytes) ∈
        db.jobs.map (fun x => (x.id, x.total_bytes)) := by
      rw [← htotals]
      exact List.mem_map_of_mem _ hr
    obtain ⟨r₀, hr₀, hpair⟩ := List.mem_map.mp hmem
    have hid₀ : r₀.id = job.id := by
      have := congrArg Prod.fst hpair
      simp only at this
      rw [this, hid]
    have hrt : r.total_bytes = some t := by
      have := congrArg Prod.snd hpair
      simp only at this
      rw [← this]
      exact hinv r₀ hr₀ hid₀
    refine ⟨min copied (max (job.total_bytes.getD 0) 0), hprog, hrt, ?_⟩
    rw [hjt]
    simp only [Option.getD_some]
    omega

theorem progress_never_exceeds_total_witness :
    (createdJobRow.progress_bytes = some 0 ∧
       ∃ t, createdJobRow.total_bytes = some t ∧ 0 ≤ t) ∧
    ((60 : Int) ≤ 60) ∧
    ((finalizeRow STATUS_FAILED (some "Io(copy failed)") none 99
        moveJobRow).progress_bytes = some 0 ∧
     (finalizeRow STATUS_FAILED (some "Io(copy failed)") none 99
        moveJobRow).total_bytes = some 60) := by
  have h := progress_never_exceeds_total moveDb tierConfig
  have h1 := (progress_never_exceeds_total admissionDb tierConfig).1 1 "cold" 50
    admissionDbAfter createdJobRow (by decide)
  have h2 := h.2.1 moveJobRow.id (parsePath moveJobRow.source_path) 60
    (fun _ => (0, 0)) 99 0 moveWalk (by decide) 60 (by decide)
  have h3 := h.2.2.1 (some "Io(copy failed)") 99 moveJobRow 0 60 (by decide)
    (by decide) (by decide)
  exact ⟨h1, h2, h3⟩

/-- **C9**: execution's copied-bytes counter starts from the job's persisted
progress_bytes (not zero) and accumulates every walked file's clamped size
onto it with `saturating_add`; consequently no persisted progress value of the
run falls below the clamp of that starting value — progress is never reset on
resume. -/

theorem resume_progress_spec (db : Db) (job : JobRow) (walk : List WalkEvent)
    (se : Nat → Int × Int) (now : Int) :
    (∀ c, (copyLoop job.id (parsePath job.source_path)
        (max (job.total_bytes.getD 0) 0) se now db
        (job.progress_bytes.getD 0) [] 0 walk).result = .ok c →
       c = (walkFileSizes (parsePath job.source_path) walk).foldl copyStep
             (job.progress_bytes.getD 0)) ∧
    (0 ≤ job.progress_bytes.getD 0 → job.progress_bytes.getD 0 ≤ I64_MAX →
     ∀ v ∈ (copyLoop job.id (parsePath job.source_path)
         (max (job.total_bytes.getD 0) 0) se now db
         (job.progress_bytes.getD 0) [] 0 walk).trace,
       min (job.progress_bytes.getD 0) (max (job.total_bytes.getD 0) 0) ≤ v) := by
  constructor
  · intro c h
    exact copyLoop_fold job.id (parsePath job.source_path)
      (max (job.total_bytes.getD 0) 0) se now walk db
      (job.progress_bytes.getD 0) [] 0 c h
  · intro h0 hmax v hv
    exact copyLoop_trace_lower job.id (parsePath job.source_path)
      (max (job.total_bytes.getD 0) 0) se now (job.progress_bytes.getD 0)
      walk db (job.progress_bytes.getD 0) [] 0 le_rfl hmax (by simp) v hv

theorem resume_progress_spec_witness :
    (90 : Int) =
      (walkFileSizes (parsePath resumedMoveJobRow.source_path) moveWalk).foldl
        copyStep (resumedMoveJobRow.progress_bytes.getD 0) ∧
    min (resumedMoveJobRow.progress_bytes.getD 0)
      (max (resumedMoveJobRow.total_bytes.getD 0) 0) ≤ 60 := by
  have h := resume_progress_spec moveDb resumedMoveJobRow moveWalk
    (fun _ => (0, 0)) 99
  exact ⟨h.1 90 (by decide), h.2 (by decide) (by decide) 60 (by decide)⟩

end JSM
